import Mathlib

/-!
Verification of the `Multiset<K>` container of `src/multimap.h` (a plain
counted-key binary search tree; the key type `K` is instantiated at `Nat`,
which carries the required strict total order).

Modelling conventions:
* A `Node*` pointer becomes the inductive `BTree` (`leaf` = `nullptr`).
* The `int count` field is modelled as `Nat` (its value in any state
  reachable without signed overflow; 2^31 repeated inserts of a single key
  are out of scope).
* The `size_t size` member wraps modulo 2^64, written explicitly as `% W`.
* `throw std::runtime_error` becomes the error type `Err`; the three
  messages used by the source are kept alongside.
* Mutating public calls are modelled as state transformers returning
  `Option Err × MS` (the thrown error, if any, and the post-state).
-/

/-- The three failure kinds of the container, with their source messages:
`keyNotFound` = "No key", `emptyTree` = "Empty multiset",
`noSuchBound` = "No floor exists for key". -/
inductive Err where
| keyNotFound : Err
| emptyTree : Err
| noSuchBound : Err
deriving DecidableEq, Repr

/-- The exception message the source attaches to each error kind. -/
def Err.message : Err → String
| .keyNotFound => "No key"
| .emptyTree => "Empty multiset"
| .noSuchBound => "No floor exists for key"

/-- Result of a non-mutating fallible query (`Result<T, Err>`). -/
inductive Res (α : Type) where
| ok : α → Res α
| err : Err → Res α
deriving DecidableEq, Repr

/-- The node structure: `struct Node { K key; int count; Node* left; Node* right; }`.
`leaf` stands for the null pointer. -/
inductive BTree where
| leaf : BTree
| node : BTree → Nat → Nat → BTree → BTree
deriving DecidableEq, Repr

/-- Private `Node* Insert(Node* node, const K& key)` (multimap.h:142-154):
null ⇒ fresh node with count 1; `key < node->key` ⇒ recurse left;
`key > node->key` ⇒ recurse right; equal ⇒ `node->count++`. -/
def insertNode : BTree → Nat → BTree
| .leaf, k => .node .leaf k 1 .leaf
| .node l key c r, k =>
  if k < key then .node (insertNode l k) key c r
  else if k > key then .node l key c (insertNode r k)
  else .node l key (c + 1) r

/-- Private `Node* Contains(Node* node, const K& key)` (multimap.h:198-209),
returning the found node's count (the caller only reads `->count`
or compares against `nullptr`); `none` = `nullptr`. -/
def containsNode : BTree → Nat → Option Nat
| .leaf, _ => none
| .node l key c r, k =>
  if k < key then containsNode l k
  else if k > key then containsNode r k
  else some c

/-- Private `Node* Min(Node* node)` (multimap.h:264-269): iterative descent
`while (node->left) node = node->left`; returns the reached node's
(key, count). The source is only ever called on a non-null node, so the
`leaf` case (`none`) is never exercised by the call sites. -/
def minNode : BTree → Option (Nat × Nat)
| .leaf => none
| .node .leaf key c _ => some (key, c)
| .node (.node a b c2 d) _ _ _ => minNode (.node a b c2 d)

/-- Private `Node* Max(Node* node)` (multimap.h:255-260), mirror of `minNode`. -/
def maxNode : BTree → Option (Nat × Nat)
| .leaf => none
| .node _ key c .leaf => some (key, c)
| .node _ _ _ (.node a b c2 d) => maxNode (.node a b c2 d)

/-- Private `Node* Remove(Node* node, const K& key)` (multimap.h:161-190).
`none` models the `throw std::runtime_error("No key")` on a null node.
In the two-children case the source does `node->key = min->key;
node->count = min->count; node->right = Remove(node->right, min->key)`.
The `minNode r = none` branch is unreachable (`r ≠ leaf` there). -/
def removeNode : BTree → Nat → Option BTree
| .leaf, _ => none
| .node l key c r, k =>
  if k < key then (removeNode l k).map (fun l2 => .node l2 key c r)
  else if k > key then (removeNode r k).map (fun r2 => .node l key c r2)
  else if c > 1 then some (.node l key (c - 1) r)
  else if l = .leaf then some r
  else if r = .leaf then some l
  else
    match minNode r with
    | none => none
    | some (mk, mc) => (removeNode r mk).map (fun r2 => .node l mk mc r2)

/-- Private `Node* Floor(Node* node, const K& key)` (multimap.h:217-229),
returning the found node's key. -/
def floorNode : BTree → Nat → Option Nat
| .leaf, _ => none
| .node l key _ r, k =>
  if k = key then some key
  else if k < key then floorNode l k
  else
    match floorNode r k with
    | some f => some f
    | none => some key

/-- Private `Node* Ceil(Node* node, const K& key)` (multimap.h:237-249),
mirror of `floorNode`. -/
def ceilNode : BTree → Nat → Option Nat
| .leaf, _ => none
| .node l key _ r, k =>
  if k = key then some key
  else if k > key then ceilNode r k
  else
    match ceilNode l k with
    | some f => some f
    | none => some key

/-- 2^64, the modulus of the `size_t size` member. -/
def W : Nat := 18446744073709551616

/-- The `Multiset<K>` object state: `Node* root` and `size_t size`. -/
structure MS where
  root : BTree
  size : Nat
deriving DecidableEq, Repr

/-- The freshly constructed multiset: `root(nullptr), size(0)`. -/
def MS.empty : MS := ⟨.leaf, 0⟩

/-- Public `void Insert(const K&)` (multimap.h:40-43):
`root = Insert(root, key); size++;`. Never throws. -/
def MS.Insert (m : MS) (k : Nat) : MS :=
  ⟨insertNode m.root k, (m.size + 1) % W⟩

/-- Public `bool Contains(const K&)` (multimap.h:57-59). -/
def MS.Contains (m : MS) (k : Nat) : Bool :=
  (containsNode m.root k).isSome

/-- Public `size_t Size()` (multimap.h:29-31). -/
def MS.Size (m : MS) : Nat := m.size

/-- Public `bool Empty()` (multimap.h:34-36). -/
def MS.Empty (m : MS) : Bool := m.size == 0

/-- Public `size_t Count(const K&)` (multimap.h:63-69):
throws "No key" when `Contains` yields null, else the node's count. -/
def MS.Count (m : MS) (k : Nat) : Res Nat :=
  match containsNode m.root k with
  | some c => .ok c
  | none => .err .keyNotFound

/-- Public `void Remove(const K&)` (multimap.h:47-53): first
`if (!Contains(key)) throw "No key";` (before any mutation), then
`root = Remove(root, key); size--;`. The first component is the thrown
error (if any), the second the post-state. If the private `Remove` were
to throw after the `Contains` check succeeded, the `root` assignment and
`size--` would not execute; that branch is modelled as leaving the state
unchanged and is unreachable for trees satisfying the BST invariant
(see `removeNode_isSome_of_contains`). -/
def MS.Remove (m : MS) (k : Nat) : Option Err × MS :=
  if (containsNode m.root k).isSome then
    match removeNode m.root k with
    | some t => (none, ⟨t, (m.size + (W - 1)) % W⟩)
    | none => (some .keyNotFound, m)
  else (some .keyNotFound, m)

/-- Public `const K& Floor(const K&)` (multimap.h:73-82): throws
"Empty multiset" when `root` is null, else runs the private `Floor` and
throws "No floor exists for key" when it returns null. -/
def MS.Floor (m : MS) (k : Nat) : Res Nat :=
  if m.root = .leaf then .err .emptyTree
  else
    match floorNode m.root k with
    | some f => .ok f
    | none => .err .noSuchBound

/-- Public `const K& Min()` (multimap.h:111-116): throws "Empty multiset"
when `root` is null, else `Min(root)->key`. The inner `none` branch is
unreachable (`minNode` succeeds on every non-leaf tree). -/
def MS.Min (m : MS) : Res Nat :=
  if m.root = .leaf then .err .emptyTree
  else
    match minNode m.root with
    | some p => .ok p.1
    | none => .err .emptyTree

/-- Public `const K& Max()` (multimap.h:102-107), mirror of `MS.Min`. -/
def MS.Max (m : MS) : Res Nat :=
  if m.root = .leaf then .err .emptyTree
  else
    match maxNode m.root with
    | some p => .ok p.1
    | none => .err .emptyTree

/-- A single public mutating call. -/
inductive Op where
| ins : Nat → Op
| del : Nat → Op
deriving DecidableEq, Repr

/-- Runs a sequence of public `Insert`/`Remove` calls from a given state;
`none` when some `Remove` throws (so `some` results are states reachable
by a throw-free call sequence). -/
def runOps : MS → List Op → Option MS
| m, [] => some m
| m, .ins k :: rest => runOps (m.Insert k) rest
| m, .del k :: rest =>
  match m.Remove k with
  | (none, m2) => runOps m2 rest
  | (some _, _) => none

/-- In-order list of the keys of the nodes of a tree. -/
def keysOf : BTree → List Nat
| .leaf => []
| .node l k _ r => keysOf l ++ k :: keysOf r

/-- Number of nodes of a tree. -/
def numNodes : BTree → Nat
| .leaf => 0
| .node l _ _ r => numNodes l + numNodes r + 1

/-- Total number of stored occurrences: the sum of the `count` fields. -/
def totalCount : BTree → Nat
| .leaf => 0
| .node l _ c r => totalCount l + c + totalCount r

/-- The tree with all counts erased (set to 0): the node/key skeleton. -/
def shapeOf : BTree → BTree
| .leaf => .leaf
| .node l k _ r => .node (shapeOf l) k 0 (shapeOf r)

/-- The BST ordering invariant (spec invariant 1): at every node, all keys
of the left subtree are strictly below the node key and all keys of the
right subtree strictly above. -/
def isBSTb : BTree → Bool
| .leaf => true
| .node l k _ r =>
  (keysOf l).all (fun x => decide (x < k)) &&
  (keysOf r).all (fun x => decide (k < x)) &&
  isBSTb l && isBSTb r

/-- Decrement by one the count of the node reached by the search path for
`k` (the tree whose existence the frame property C9 asserts). -/
def decAt : BTree → Nat → BTree
| .leaf, _ => .leaf
| .node l key c r, k =>
  if k < key then .node (decAt l k) key c r
  else if k > key then .node l key c (decAt r k)
  else .node l key (c - 1) r
theorem isBSTb_node {l r : BTree} {k c : Nat} :
    isBSTb (.node l k c r) = true ↔
      (∀ x ∈ keysOf l, x < k) ∧ (∀ x ∈ keysOf r, k < x) ∧
      isBSTb l = true ∧ isBSTb r = true := by
  simp [isBSTb, List.all_eq_true, Bool.and_eq_true, and_assoc]

theorem mem_keysOf_node {l r : BTree} {k c x : Nat} :
    x ∈ keysOf (.node l k c r) ↔ x ∈ keysOf l ∨ x = k ∨ x ∈ keysOf r := by
  simp [keysOf]

theorem containsNode_mem {t : BTree} {k c : Nat}
    (h : containsNode t k = some c) : k ∈ keysOf t := by
  induction t with
  | leaf => simp [containsNode] at h
  | node l key cnt r ihl ihr =>
    rw [containsNode] at h
    rw [mem_keysOf_node]
    split at h
    · exact Or.inl (ihl h)
    · next =>
      split at h
      · exact Or.inr (Or.inr (ihr h))
      · next h1 h2 =>
        exact Or.inr (Or.inl (by omega))

theorem minNode_isSome {t : BTree} (h : t ≠ .leaf) : (minNode t).isSome := by
  induction t with
  | leaf => exact absurd rfl h
  | node l key cnt r ihl ihr =>
    cases l with
    | leaf => simp [minNode]
    | node a b c d =>
      rw [minNode]
      exact ihl (fun hh => BTree.noConfusion hh)

theorem minNode_mem {t : BTree} {mk mc : Nat}
    (h : minNode t = some (mk, mc)) : mk ∈ keysOf t := by
  induction t with
  | leaf => simp [minNode] at h
  | node l key cnt r ihl ihr =>
    cases l with
    | leaf =>
      simp [minNode] at h
      rw [mem_keysOf_node]
      exact Or.inr (Or.inl h.1.symm)
    | node a b c d =>
      rw [minNode] at h
      rw [mem_keysOf_node]
      exact Or.inl (ihl h)

theorem minNode_contains {t : BTree} {mk mc : Nat}
    (hb : isBSTb t = true) (h : minNode t = some (mk, mc)) :
    containsNode t mk = some mc := by
  induction t with
  | leaf => simp [minNode] at h
  | node l key cnt r ihl ihr =>
    rcases isBSTb_node.mp hb with ⟨hl, hr, hbl, hbr⟩
    cases l with
    | leaf =>
      simp [minNode] at h
      simp [containsNode, h.1, h.2]
    | node a b c d =>
      rw [minNode] at h
      have hmem : mk ∈ keysOf (BTree.node a b c d) := minNode_mem h
      have hlt : mk < key := hl mk hmem
      rw [containsNode]
      rw [if_pos hlt]
      exact ihl hbl h

theorem minNode_least {t : BTree} {mk mc : Nat}
    (hb : isBSTb t = true) (h : minNode t = some (mk, mc)) :
    ∀ x ∈ keysOf t, mk ≤ x := by
  induction t with
  | leaf => simp [minNode] at h
  | node l key cnt r ihl ihr =>
    rcases isBSTb_node.mp hb with ⟨hl, hr, hbl, hbr⟩
    intro x hx
    rw [mem_keysOf_node] at hx
    cases l with
    | leaf =>
      simp [minNode] at h
      rcases hx with hx | hx | hx
      · simp [keysOf] at hx
      · omega
      · have := hr x hx
        omega
    | node a b c d =>
      rw [minNode] at h
      have hmem : mk ∈ keysOf (BTree.node a b c d) := minNode_mem h
      have hlt : mk < key := hl mk hmem
      rcases hx with hx | hx | hx
      · exact ihl hbl h x hx
      · omega
      · have := hr x hx
        omega
theorem maxNode_mem {t : BTree} {mk mc : Nat}
    (h : maxNode t = some (mk, mc)) : mk ∈ keysOf t := by
  induction t with
  | leaf => simp [maxNode] at h
  | node l key cnt r ihl ihr =>
    cases r with
    | leaf =>
      simp [maxNode] at h
      rw [mem_keysOf_node]
      exact Or.inr (Or.inl h.1.symm)
    | node a b c d =>
      rw [maxNode] at h
      rw [mem_keysOf_node]
      exact Or.inr (Or.inr (ihr h))

theorem maxNode_isSome {t : BTree} (h : t ≠ .leaf) : (maxNode t).isSome := by
  induction t with
  | leaf => exact absurd rfl h
  | node l key cnt r ihl ihr =>
    cases r with
    | leaf => simp [maxNode]
    | node a b c d =>
      rw [maxNode]
      exact ihr (fun hh => BTree.noConfusion hh)

theorem maxNode_greatest {t : BTree} {mk mc : Nat}
    (hb : isBSTb t = true) (h : maxNode t = some (mk, mc)) :
    ∀ x ∈ keysOf t, x ≤ mk := by
  induction t with
  | leaf => simp [maxNode] at h
  | node l key cnt r ihl ihr =>
    rcases isBSTb_node.mp hb with ⟨hl, hr, hbl, hbr⟩
    intro x hx
    rw [mem_keysOf_node] at hx
    cases r with
    | leaf =>
      simp [maxNode] at h
      rcases hx with hx | hx | hx
      · have := hl x hx
        omega
      · omega
      · simp [keysOf] at hx
    | node a b c d =>
      rw [maxNode] at h
      have hmem : mk ∈ keysOf (BTree.node a b c d) := maxNode_mem h
      have hgt : key < mk := hr mk hmem
      rcases hx with hx | hx | hx
      · have := hl x hx
        omega
      · omega
      · exact ihr hbr h x hx

theorem removeNode_isSome_of_contains {t : BTree} {k : Nat}
    (hb : isBSTb t = true) (h : (containsNode t k).isSome) :
    (removeNode t k).isSome := by
  induction t generalizing k with
  | leaf => simp [containsNode] at h
  | node l key cnt r ihl ihr =>
    rcases isBSTb_node.mp hb with ⟨hl, hr, hbl, hbr⟩
    rw [containsNode] at h
    rw [removeNode]
    split at h
    · next hlt =>
      rw [if_pos hlt]
      cases hrm : removeNode l k with
      | none => exact absurd (ihl hbl h) (by simp [hrm])
      | some t2 => simp [hrm]
    · next hnlt =>
      split at h
      · next hgt =>
        rw [if_neg hnlt, if_pos hgt]
        cases hrm : removeNode r k with
        | none => exact absurd (ihr hbr h) (by simp [hrm])
        | some t2 => simp [hrm]
      · next hgt =>
        rw [if_neg hnlt, if_neg hgt]
        by_cases hc : cnt > 1
        · simp [hc]
        · rw [if_neg hc]
          by_cases hL : l = BTree.leaf
          · simp [hL]
          · rw [if_neg hL]
            by_cases hR : r = BTree.leaf
            · simp [hR]
            · rw [if_neg hR]
              have hms := minNode_isSome hR
              cases hmn : minNode r with
              | none => exact absurd hms (by simp [hmn])
              | some p =>
                obtain ⟨mk, mc⟩ := p
                have hcr : (containsNode r mk).isSome := by
                  rw [minNode_contains hbr hmn]
                  rfl
                cases hrm : removeNode r mk with
                | none => exact absurd (ihr hbr hcr) (by simp [hrm])
                | some t2 => simp [hrm]
theorem floorNode_sound {t : BTree} {q f : Nat} (hb : isBSTb t = true)
    (h : floorNode t q = some f) : f ∈ keysOf t ∧ f ≤ q := by
  induction t generalizing f with
  | leaf => simp [floorNode] at h
  | node l key cnt r ihl ihr =>
    rcases isBSTb_node.mp hb with ⟨hl, hr, hbl, hbr⟩
    rw [floorNode] at h
    split at h
    · next heq =>
      injection h with h2
      subst h2
      exact ⟨mem_keysOf_node.mpr (Or.inr (Or.inl rfl)), le_of_eq heq.symm⟩
    · next hne =>
      split at h
      · next hlt =>
        obtain ⟨hmem, hle⟩ := ihl hbl h
        exact ⟨mem_keysOf_node.mpr (Or.inl hmem), hle⟩
      · next hnlt =>
        have hkq : key < q := by omega
        cases hfr : floorNode r q with
        | some f2 =>
          rw [hfr] at h
          injection h with h2
          subst h2
          obtain ⟨hmem, hle⟩ := ihr hbr hfr
          exact ⟨mem_keysOf_node.mpr (Or.inr (Or.inr hmem)), hle⟩
        | none =>
          rw [hfr] at h
          injection h with h2
          subst h2
          exact ⟨mem_keysOf_node.mpr (Or.inr (Or.inl rfl)), le_of_lt hkq⟩

theorem floorNode_none {t : BTree} {q : Nat} (hb : isBSTb t = true)
    (h : floorNode t q = none) : ∀ x ∈ keysOf t, q < x := by
  induction t with
  | leaf => simp [keysOf]
  | node l key cnt r ihl ihr =>
    rcases isBSTb_node.mp hb with ⟨hl, hr, hbl, hbr⟩
    rw [floorNode] at h
    split at h
    · exact absurd h (by simp)
    · next hne =>
      split at h
      · next hlt =>
        intro x hx
        rcases mem_keysOf_node.mp hx with hx | hx | hx
        · exact ihl hbl h x hx
        · omega
        · have := hr x hx
          omega
      · next hnlt =>
        cases hfr : floorNode r q with
        | some f2 => rw [hfr] at h; exact absurd h (by simp)
        | none => rw [hfr] at h; exact absurd h (by simp)

theorem floorNode_max {t : BTree} {q f : Nat} (hb : isBSTb t = true)
    (h : floorNode t q = some f) : ∀ x ∈ keysOf t, x ≤ q → x ≤ f := by
  induction t generalizing f with
  | leaf => simp [keysOf]
  | node l key cnt r ihl ihr =>
    rcases isBSTb_node.mp hb with ⟨hl, hr, hbl, hbr⟩
    rw [floorNode] at h
    intro x hx hxq
    rcases mem_keysOf_node.mp hx with hx | hx | hx
    all_goals split at h
    -- x ∈ keysOf l
    · next heq =>
      injection h with h2
      have := hl x hx
      omega
    · next hne =>
      split at h
      · next hlt => exact ihl hbl h x hx hxq
      · next hnlt =>
        cases hfr : floorNode r q with
        | some f2 =>
          rw [hfr] at h
          injection h with h2
          have hf2 : f2 ∈ keysOf r := (floorNode_sound hbr hfr).1
          have := hr f2 hf2
          have := hl x hx
          omega
        | none =>
          rw [hfr] at h
          injection h with h2
          have := hl x hx
          omega
    -- x = key
    · next heq =>
      injection h with h2
      omega
    · next hne =>
      split at h
      · next hlt => omega
      · next hnlt =>
        cases hfr : floorNode r q with
        | some f2 =>
          rw [hfr] at h
          injection h with h2
          have hf2 : f2 ∈ keysOf r := (floorNode_sound hbr hfr).1
          have := hr f2 hf2
          omega
        | none =>
          rw [hfr] at h
          injection h with h2
          omega
    -- x ∈ keysOf r
    · next heq =>
      injection h with h2
      have := hr x hx
      omega
    · next hne =>
      split at h
      · next hlt =>
        have := hr x hx
        omega
      · next hnlt =>
        cases hfr : floorNode r q with
        | some f2 =>
          rw [hfr] at h
          injection h with h2
          exact h2 ▸ ihr hbr hfr x hx hxq
        | none =>
          rw [hfr] at h
          have := floorNode_none hbr hfr x hx
          omega
theorem ceilNode_sound {t : BTree} {q f : Nat} (hb : isBSTb t = true)
    (h : ceilNode t q = some f) : f ∈ keysOf t ∧ q ≤ f := by
  induction t generalizing f with
  | leaf => simp [ceilNode] at h
  | node l key cnt r ihl ihr =>
    rcases isBSTb_node.mp hb with ⟨hl, hr, hbl, hbr⟩
    rw [ceilNode] at h
    split at h
    · next heq =>
      injection h with h2
      subst h2
      exact ⟨mem_keysOf_node.mpr (Or.inr (Or.inl rfl)), le_of_eq heq⟩
    · next hne =>
      split at h
      · next hgt =>
        obtain ⟨hmem, hle⟩ := ihr hbr h
        exact ⟨mem_keysOf_node.mpr (Or.inr (Or.inr hmem)), hle⟩
      · next hngt =>
        have hqk : q < key := by omega
        cases hfl : ceilNode l q with
        | some f2 =>
          rw [hfl] at h
          injection h with h2
          subst h2
          obtain ⟨hmem, hle⟩ := ihl hbl hfl
          exact ⟨mem_keysOf_node.mpr (Or.inl hmem), hle⟩
        | none =>
          rw [hfl] at h
          injection h with h2
          subst h2
          exact ⟨mem_keysOf_node.mpr (Or.inr (Or.inl rfl)), le_of_lt hqk⟩

theorem ceilNode_none {t : BTree} {q : Nat} (hb : isBSTb t = true)
    (h : ceilNode t q = none) : ∀ x ∈ keysOf t, x < q := by
  induction t with
  | leaf => simp [keysOf]
  | node l key cnt r ihl ihr =>
    rcases isBSTb_node.mp hb with ⟨hl, hr, hbl, hbr⟩
    rw [ceilNode] at h
    split at h
    · exact absurd h (by simp)
    · next hne =>
      split at h
      · next hgt =>
        intro x hx
        rcases mem_keysOf_node.mp hx with hx | hx | hx
        · have := hl x hx
          omega
        · omega
        · exact ihr hbr h x hx
      · next hngt =>
        cases hfl : ceilNode l q with
        | some f2 => rw [hfl] at h; exact absurd h (by simp)
        | none => rw [hfl] at h; exact absurd h (by simp)

theorem ceilNode_min {t : BTree} {q f : Nat} (hb : isBSTb t = true)
    (h : ceilNode t q = some f) : ∀ x ∈ keysOf t, q ≤ x → f ≤ x := by
  induction t generalizing f with
  | leaf => simp [keysOf]
  | node l key cnt r ihl ihr =>
    rcases isBSTb_node.mp hb with ⟨hl, hr, hbl, hbr⟩
    rw [ceilNode] at h
    intro x hx hxq
    rcases mem_keysOf_node.mp hx with hx | hx | hx
    all_goals split at h
    -- x ∈ keysOf l
    · next heq =>
      injection h with h2
      have := hl x hx
      omega
    · next hne =>
      split at h
      · next hgt =>
        have := hl x hx
        omega
      · next hngt =>
        cases hfl : ceilNode l q with
        | some f2 =>
          rw [hfl] at h
          injection h with h2
          exact h2 ▸ ihl hbl hfl x hx hxq
        | none =>
          rw [hfl] at h
          injection h with h2
          have := ceilNode_none hbl hfl x hx
          omega
    -- x = key
    · next heq =>
      injection h with h2
      omega
    · next hne =>
      split at h
      · next hgt => omega
      · next hngt =>
        cases hfl : ceilNode l q with
        | some f2 =>
          rw [hfl] at h
          injection h with h2
          have hf2 : f2 ∈ keysOf l := (ceilNode_sound hbl hfl).1
          have := hl f2 hf2
          omega
        | none =>
          rw [hfl] at h
          injection h with h2
          omega
    -- x ∈ keysOf r
    · next heq =>
      injection h with h2
      have := hr x hx
      omega
    · next hne =>
      split at h
      · next hgt => exact ihr hbr h x hx hxq
      · next hngt =>
        cases hfl : ceilNode l q with
        | some f2 =>
          rw [hfl] at h
          injection h with h2
          have hf2 : f2 ∈ keysOf l := (ceilNode_sound hbl hfl).1
          have := hl f2 hf2
          have := hr x hx
          omega
        | none =>
          rw [hfl] at h
          injection h with h2
          have := hr x hx
          omega
theorem insertNode_present {t : BTree} {k c : Nat}
    (h : containsNode t k = some c) :
    containsNode (insertNode t k) k = some (c + 1) ∧
    numNodes (insertNode t k) = numNodes t ∧
    shapeOf (insertNode t k) = shapeOf t := by
  induction t with
  | leaf => simp [containsNode] at h
  | node l key cnt r ihl ihr =>
    rw [containsNode] at h
    rw [insertNode]
    split at h
    · next hlt =>
      obtain ⟨ih1, ih2, ih3⟩ := ihl h
      rw [if_pos hlt]
      refine ⟨?_, ?_, ?_⟩
      · rw [containsNode, if_pos hlt]
        exact ih1
      · simp [numNodes, ih2]
      · simp [shapeOf, ih3]
    · next hnlt =>
      split at h
      · next hgt =>
        obtain ⟨ih1, ih2, ih3⟩ := ihr h
        rw [if_neg hnlt, if_pos hgt]
        refine ⟨?_, ?_, ?_⟩
        · rw [containsNode, if_neg hnlt, if_pos hgt]
          exact ih1
        · simp [numNodes, ih2]
        · simp [shapeOf, ih3]
      · next hgt =>
        injection h with h2
        subst h2
        rw [if_neg hnlt, if_neg hgt]
        refine ⟨?_, rfl, rfl⟩
        rw [containsNode, if_neg hnlt, if_neg hgt]

theorem insertNode_absent {t : BTree} {k : Nat}
    (h : containsNode t k = none) :
    containsNode (insertNode t k) k = some 1 ∧
    numNodes (insertNode t k) = numNodes t + 1 := by
  induction t with
  | leaf =>
    refine ⟨?_, rfl⟩
    rw [insertNode, containsNode]
    simp
  | node l key cnt r ihl ihr =>
    rw [containsNode] at h
    rw [insertNode]
    split at h
    · next hlt =>
      obtain ⟨ih1, ih2⟩ := ihl h
      rw [if_pos hlt]
      refine ⟨?_, ?_⟩
      · rw [containsNode, if_pos hlt]
        exact ih1
      · simp [numNodes, ih2]
        omega
    · next hnlt =>
      split at h
      · next hgt =>
        obtain ⟨ih1, ih2⟩ := ihr h
        rw [if_neg hnlt, if_pos hgt]
        refine ⟨?_, ?_⟩
        · rw [containsNode, if_neg hnlt, if_pos hgt]
          exact ih1
        · simp [numNodes, ih2]
          omega
      · next hgt => exact absurd h (by simp)

theorem removeNode_insertNode {t : BTree} {k : Nat}
    (h : containsNode t k = none) :
    removeNode (insertNode t k) k = some t := by
  induction t with
  | leaf =>
    rw [insertNode, removeNode]
    simp
  | node l key cnt r ihl ihr =>
    rw [containsNode] at h
    rw [insertNode]
    split at h
    · next hlt =>
      rw [if_pos hlt, removeNode, if_pos hlt, ihl h]
      rfl
    · next hnlt =>
      split at h
      · next hgt =>
        rw [if_neg hnlt, if_pos hgt, removeNode, if_neg hnlt, if_pos hgt, ihr h]
        rfl
      · next hgt => exact absurd h (by simp)

theorem removeNode_eq_decAt {t : BTree} {k c : Nat}
    (h : containsNode t k = some c) (hc : 2 ≤ c) :
    removeNode t k = some (decAt t k) := by
  induction t with
  | leaf => simp [containsNode] at h
  | node l key cnt r ihl ihr =>
    rw [containsNode] at h
    rw [removeNode, decAt]
    split at h
    · next hlt =>
      rw [if_pos hlt, if_pos hlt, ihl h]
      rfl
    · next hnlt =>
      split at h
      · next hgt =>
        rw [if_neg hnlt, if_pos hgt, if_neg hnlt, if_pos hgt, ihr h]
        rfl
      · next hgt =>
        injection h with h2
        subst h2
        rw [if_neg hnlt, if_neg hgt, if_neg hnlt, if_neg hgt, if_pos (by omega : cnt > 1)]

theorem shapeOf_decAt (t : BTree) (k : Nat) :
    shapeOf (decAt t k) = shapeOf t := by
  induction t with
  | leaf => rfl
  | node l key cnt r ihl ihr =>
    rw [decAt]
    split
    · simp [shapeOf, ihl]
    · split
      · simp [shapeOf, ihr]
      · simp [shapeOf]

theorem keysOf_decAt (t : BTree) (k : Nat) :
    keysOf (decAt t k) = keysOf t := by
  induction t with
  | leaf => rfl
  | node l key cnt r ihl ihr =>
    rw [decAt]
    split
    · simp [keysOf, ihl]
    · split
      · simp [keysOf, ihr]
      · simp [keysOf]

theorem numNodes_decAt (t : BTree) (k : Nat) :
    numNodes (decAt t k) = numNodes t := by
  induction t with
  | leaf => rfl
  | node l key cnt r ihl ihr =>
    rw [decAt]
    split
    · simp [numNodes, ihl]
    · split
      · simp [numNodes, ihr]
      · simp [numNodes]

theorem containsNode_decAt_self {t : BTree} {k c : Nat}
    (h : containsNode t k = some c) :
    containsNode (decAt t k) k = some (c - 1) := by
  induction t with
  | leaf => simp [containsNode] at h
  | node l key cnt r ihl ihr =>
    rw [containsNode] at h
    rw [decAt]
    split at h
    · next hlt =>
      rw [if_pos hlt, containsNode, if_pos hlt]
      exact ihl h
    · next hnlt =>
      split at h
      · next hgt =>
        rw [if_neg hnlt, if_pos hgt, containsNode, if_neg hnlt, if_pos hgt]
        exact ihr h
      · next hgt =>
        injection h with h2
        subst h2
        rw [if_neg hnlt, if_neg hgt, containsNode, if_neg hnlt, if_neg hgt]

theorem containsNode_decAt_other {t : BTree} {k j : Nat} (hj : j ≠ k) :
    containsNode (decAt t k) j = containsNode t j := by
  induction t with
  | leaf => rfl
  | node l key cnt r ihl ihr =>
    rw [decAt]
    by_cases hlt : k < key
    · rw [if_pos hlt]
      rw [containsNode, containsNode]
      split
      · exact ihl
      · rfl
    · rw [if_neg hlt]
      by_cases hgt : k > key
      · rw [if_pos hgt]
        rw [containsNode, containsNode]
        split
        · rfl
        · split
          · exact ihr
          · rfl
      · rw [if_neg hgt]
        have hk : k = key := by omega
        rw [containsNode, containsNode]
        split
        · rfl
        · split
          · rfl
          · next h1 h2 => omega
/-- Unfolding equation for a successful public Remove. -/
theorem MS.Remove_ok (m : MS) (k : Nat) {t : BTree}
    (hc : (containsNode m.root k).isSome = true)
    (hr : removeNode m.root k = some t) :
    MS.Remove m k = (none, MS.mk t ((m.size + (W - 1)) % W)) := by
  rw [MS.Remove, if_pos hc, hr]

theorem keysOf_eq_nil {t : BTree} : keysOf t = [] ↔ t = .leaf := by
  cases t with
  | leaf => simp [keysOf]
  | node l k c r => simp [keysOf]

/-- A sample BST-invariant tree holding keys 3 (count 2), 5, 7
(the spec §8 scenario: insert 5, 3, 7, 3). -/
def wtree : BTree :=
  .node (.node .leaf 3 2 .leaf) 5 1 (.node .leaf 7 1 .leaf)

/-- C1: fails on the code. After the reachable call sequence
Insert 2, Insert 1, Insert 3, Insert 3, Remove 2 (every call returning
normally), the BST ordering invariant is violated: the two-children branch
of the private Remove copies the successor node (3, count 2) into the
removed node and then merely decrements the successor's count, leaving two
nodes with key 3, one in the right subtree of the other. -/
theorem c1_remove_two_children_breaks_bst :
    (runOps MS.empty [Op.ins 2, Op.ins 1, Op.ins 3, Op.ins 3, Op.del 2]).map
      (fun m => (isBSTb m.root, m.root)) =
    some (false,
      BTree.node (BTree.node BTree.leaf 1 1 BTree.leaf) 3 2
        (BTree.node BTree.leaf 3 1 BTree.leaf)) := by decide

/-- C2: fails on the code. After the reachable call sequence
Insert 2, Insert 1, Insert 3, Insert 3, Insert 3, Remove 2, Remove 3,
Remove 3, Remove 3 (every call returning normally), `Size()` is 1 while
the tree stores 4 occurrences (counts 1, 2, 1 over nodes keyed 1, 3, 3),
and the sum of `Count` over the distinct keys 1 and 3 is 1 + 2 = 3 ≠ 1. -/
theorem c2_size_vs_counts_mismatch :
    (runOps MS.empty
        [Op.ins 2, Op.ins 1, Op.ins 3, Op.ins 3, Op.ins 3,
         Op.del 2, Op.del 3, Op.del 3, Op.del 3]).map
      (fun m => (m.Size, totalCount m.root, m.Count 1, m.Count 3,
        keysOf m.root, decide (m.Size = totalCount m.root))) =
    some (1, 4, Res.ok 1, Res.ok 2, [1, 3, 3], false) := by rfl

/-- C3: on a tree satisfying the BST ordering invariant, the private Ceil
helper (multimap.h:237-249) returns the least stored key ≥ q, and returns
null exactly when every stored key is < q. (The public Ceil wrapper at
multimap.h:86-98 never calls it: its body is a misplaced copy of the
helper that references an undeclared identifier `node`, returns 0 instead
of throwing on an empty tree, and has no throw path at all, so the public
operation promised by its own comment and exercised by the tests does not
exist; see the corresponding entry of the results.) -/
theorem c3_private_ceil_correct (t : BTree) (q : Nat)
    (hb : isBSTb t = true) :
    (∀ f, ceilNode t q = some f →
        f ∈ keysOf t ∧ q ≤ f ∧ ∀ x ∈ keysOf t, q ≤ x → f ≤ x) ∧
    (ceilNode t q = none ↔ ∀ x ∈ keysOf t, x < q) := by
  constructor
  · intro f hf
    exact ⟨(ceilNode_sound hb hf).1, (ceilNode_sound hb hf).2,
      ceilNode_min hb hf⟩
  · constructor
    · exact ceilNode_none hb
    · intro hall
      cases hcl : ceilNode t q with
      | none => rfl
      | some f =>
        obtain ⟨hmem, hle⟩ := ceilNode_sound hb hcl
        have := hall f hmem
        omega

theorem c3_private_ceil_correct_witness :
    isBSTb wtree = true ∧
    ((∀ f, ceilNode wtree 4 = some f →
        f ∈ keysOf wtree ∧ 4 ≤ f ∧ ∀ x ∈ keysOf wtree, 4 ≤ x → f ≤ x) ∧
     (ceilNode wtree 4 = none ↔ ∀ x ∈ keysOf wtree, x < 4)) :=
  ⟨by decide, c3_private_ceil_correct wtree 4 (by decide)⟩

/-- C4: on a state satisfying the BST ordering invariant, the public Floor
returns the greatest stored key ≤ q, and throws (either "Empty multiset"
or "No floor exists for key") exactly when no stored key is ≤ q. -/
theorem c4_floor_correct (m : MS) (q : Nat) (hb : isBSTb m.root = true) :
    (∀ f, MS.Floor m q = Res.ok f →
        f ∈ keysOf m.root ∧ f ≤ q ∧
        ∀ x ∈ keysOf m.root, x ≤ q → x ≤ f) ∧
    ((∃ e, MS.Floor m q = Res.err e) ↔ ∀ x ∈ keysOf m.root, q < x) := by
  by_cases hroot : m.root = BTree.leaf
  · constructor
    · intro f hf
      rw [MS.Floor, if_pos hroot] at hf
      exact absurd hf (by simp)
    · constructor
      · intro _ x hx
        rw [hroot] at hx
        simp [keysOf] at hx
      · intro _
        exact ⟨Err.emptyTree, by rw [MS.Floor, if_pos hroot]⟩
  · cases hfn : floorNode m.root q with
    | some f0 =>
      constructor
      · intro f hf
        rw [MS.Floor, if_neg hroot, hfn] at hf
        injection hf with h2
        subst h2
        exact ⟨(floorNode_sound hb hfn).1, (floorNode_sound hb hfn).2,
          floorNode_max hb hfn⟩
      · constructor
        · rintro ⟨e, he⟩
          rw [MS.Floor, if_neg hroot, hfn] at he
          exact absurd he (by simp)
        · intro hall
          have hmem := (floorNode_sound hb hfn).1
          have h1 := hall f0 hmem
          have h2 := (floorNode_sound hb hfn).2
          omega
    | none =>
      constructor
      · intro f hf
        rw [MS.Floor, if_neg hroot, hfn] at hf
        exact absurd hf (by simp)
      · constructor
        · intro _
          exact floorNode_none hb hfn
        · intro _
          exact ⟨Err.noSuchBound, by rw [MS.Floor, if_neg hroot, hfn]⟩

theorem c4_floor_correct_witness :
    isBSTb (MS.mk wtree 4).root = true ∧
    ((∀ f, MS.Floor (MS.mk wtree 4) 4 = Res.ok f →
        f ∈ keysOf (MS.mk wtree 4).root ∧ f ≤ 4 ∧
        ∀ x ∈ keysOf (MS.mk wtree 4).root, x ≤ 4 → x ≤ f) ∧
     ((∃ e, MS.Floor (MS.mk wtree 4) 4 = Res.err e) ↔
        ∀ x ∈ keysOf (MS.mk wtree 4).root, 4 < x)) :=
  ⟨by decide, c4_floor_correct (MS.mk wtree 4) 4 (by decide)⟩

/-- C5: on a state satisfying the BST ordering invariant, the public
Remove throws exactly when the key is absent, the thrown error is always
"No key" (KeyNotFound), and a throwing call leaves the whole state (tree
and size counter) unchanged — the `Contains` guard runs before any
mutation. -/
theorem c5_remove_failure_spec (m : MS) (k : Nat)
    (hb : isBSTb m.root = true) :
    (∀ e, (MS.Remove m k).1 = some e →
        e = Err.keyNotFound ∧ (MS.Remove m k).2 = m) ∧
    ((MS.Remove m k).1.isSome ↔ MS.Contains m k = false) := by
  by_cases hc : (containsNode m.root k).isSome = true
  · have hrm := removeNode_isSome_of_contains hb hc
    cases hr : removeNode m.root k with
    | none =>
      rw [hr] at hrm
      simp at hrm
    | some t2 =>
      have hRem : MS.Remove m k =
          (none, ⟨t2, (m.size + (W - 1)) % W⟩) := by
        rw [MS.Remove, if_pos hc, hr]
      rw [hRem]
      constructor
      · intro e he
        exact absurd he (by simp)
      · simp [MS.Contains, hc]
  · have hRem : MS.Remove m k = (some Err.keyNotFound, m) := by
      rw [MS.Remove, if_neg hc]
    rw [hRem]
    constructor
    · intro e he
      injection he with h2
      exact ⟨h2.symm, rfl⟩
    · simp [MS.Contains, hc]

theorem c5_remove_failure_spec_witness :
    isBSTb (MS.mk wtree 4).root = true ∧
    ((∀ e, (MS.Remove (MS.mk wtree 4) 10).1 = some e →
        e = Err.keyNotFound ∧ (MS.Remove (MS.mk wtree 4) 10).2 = MS.mk wtree 4) ∧
     ((MS.Remove (MS.mk wtree 4) 10).1.isSome ↔
        MS.Contains (MS.mk wtree 4) 10 = false)) :=
  ⟨by decide, c5_remove_failure_spec (MS.mk wtree 4) 10 (by decide)⟩

/-- C6: the public Insert never throws (it is a total state transformer);
it bumps the size counter by one (exactly, absent size_t wrap-around);
if the key is present it increments that node's count, creating no node
and leaving the node/key skeleton untouched, else it adds exactly one
fresh node holding the key with count 1. -/
theorem c6_insert_spec (m : MS) (k : Nat) :
    (MS.Insert m k).Size = (m.Size + 1) % W ∧
    (m.Size + 1 < W → (MS.Insert m k).Size = m.Size + 1) ∧
    (∀ c, containsNode m.root k = some c →
        containsNode (MS.Insert m k).root k = some (c + 1) ∧
        numNodes (MS.Insert m k).root = numNodes m.root ∧
        shapeOf (MS.Insert m k).root = shapeOf m.root) ∧
    (containsNode m.root k = none →
        containsNode (MS.Insert m k).root k = some 1 ∧
        numNodes (MS.Insert m k).root = numNodes m.root + 1) :=
  ⟨rfl, fun h => Nat.mod_eq_of_lt h,
   fun _ hc => insertNode_present hc,
   fun hn => insertNode_absent hn⟩

theorem c6_insert_spec_witness :
    containsNode (MS.mk wtree 4).root 3 = some 2 ∧
    (containsNode (MS.Insert (MS.mk wtree 4) 3).root 3 = some (2 + 1) ∧
     numNodes (MS.Insert (MS.mk wtree 4) 3).root = numNodes (MS.mk wtree 4).root ∧
     shapeOf (MS.Insert (MS.mk wtree 4) 3).root = shapeOf (MS.mk wtree 4).root) :=
  ⟨by decide, (c6_insert_spec (MS.mk wtree 4) 3).2.2.1 2 (by decide)⟩

/-- C7: round trip — from any state not containing k (with a size counter
in size_t range), Insert k then Remove k throws nothing and restores the
exact original state; in particular Contains k is false afterwards and
the size counter is back to its prior value. -/
theorem c7_insert_remove_roundtrip (m : MS) (k : Nat)
    (h : containsNode m.root k = none) (hs : m.size < W) :
    (MS.Remove (MS.Insert m k) k).1 = none ∧
    (MS.Remove (MS.Insert m k) k).2 = m ∧
    MS.Contains (MS.Remove (MS.Insert m k) k).2 k = false ∧
    ((MS.Remove (MS.Insert m k) k).2).Size = m.Size := by
  have h1 := (insertNode_absent h).1
  have hc2 : (containsNode (MS.Insert m k).root k).isSome = true := by
    show (containsNode (insertNode m.root k) k).isSome = true
    rw [h1]
    rfl
  have hr2 : removeNode (MS.Insert m k).root k = some m.root :=
    removeNode_insertNode h
  have hRem := MS.Remove_ok (MS.Insert m k) k hc2 hr2
  have hWpos : 0 < W := by norm_num [W]
  have hsz2 : ((MS.Insert m k).size + (W - 1)) % W = m.size := by
    show ((m.size + 1) % W + (W - 1)) % W = m.size
    rw [Nat.mod_add_mod]
    have he : m.size + 1 + (W - 1) = m.size + W := by omega
    rw [he, Nat.add_mod_right]
    exact Nat.mod_eq_of_lt hs
  rw [hsz2] at hRem
  rw [hRem]
  exact ⟨rfl, rfl, by simp [MS.Contains, h], rfl⟩

theorem c7_insert_remove_roundtrip_witness :
    containsNode (MS.mk wtree 4).root 6 = none ∧ (MS.mk wtree 4).size < W ∧
    ((MS.Remove (MS.Insert (MS.mk wtree 4) 6) 6).1 = none ∧
     (MS.Remove (MS.Insert (MS.mk wtree 4) 6) 6).2 = MS.mk wtree 4 ∧
     MS.Contains (MS.Remove (MS.Insert (MS.mk wtree 4) 6) 6).2 6 = false ∧
     ((MS.Remove (MS.Insert (MS.mk wtree 4) 6) 6).2).Size = (MS.mk wtree 4).Size) :=
  ⟨by decide, by decide,
   c7_insert_remove_roundtrip (MS.mk wtree 4) 6 (by decide) (by decide)⟩

/-- C8: on a state satisfying the BST ordering invariant, Min returns the
least stored key and Max the greatest, and each throws exactly when the
multiset stores nothing, always with the "Empty multiset" (EmptyTree)
error. -/
theorem c8_min_max_spec (m : MS) (hb : isBSTb m.root = true) :
    ((∃ e, MS.Min m = Res.err e) ↔ keysOf m.root = []) ∧
    ((∃ e, MS.Max m = Res.err e) ↔ keysOf m.root = []) ∧
    (∀ e, MS.Min m = Res.err e → e = Err.emptyTree) ∧
    (∀ e, MS.Max m = Res.err e → e = Err.emptyTree) ∧
    (∀ k, MS.Min m = Res.ok k →
        k ∈ keysOf m.root ∧ ∀ x ∈ keysOf m.root, k ≤ x) ∧
    (∀ k, MS.Max m = Res.ok k →
        k ∈ keysOf m.root ∧ ∀ x ∈ keysOf m.root, x ≤ k) := by
  by_cases hroot : m.root = BTree.leaf
  · have hmin : MS.Min m = Res.err Err.emptyTree := by
      rw [MS.Min, if_pos hroot]
    have hmax : MS.Max m = Res.err Err.emptyTree := by
      rw [MS.Max, if_pos hroot]
    rw [hmin, hmax]
    refine ⟨?_, ?_, ?_, ?_, ?_, ?_⟩
    · simp [keysOf_eq_nil, hroot]
    · simp [keysOf_eq_nil, hroot]
    · intro e he
      injection he with h2
      exact h2.symm
    · intro e he
      injection he with h2
      exact h2.symm
    · intro k hk
      exact absurd hk (by simp)
    · intro k hk
      exact absurd hk (by simp)
  · have hmins := minNode_isSome hroot
    have hmaxs := maxNode_isSome hroot
    cases hmn : minNode m.root with
    | none => rw [hmn] at hmins; simp at hmins
    | some p =>
      obtain ⟨mk1, mc1⟩ := p
      cases hmx : maxNode m.root with
      | none => rw [hmx] at hmaxs; simp at hmaxs
      | some p2 =>
        obtain ⟨mk2, mc2⟩ := p2
        have hmin : MS.Min m = Res.ok mk1 := by
          rw [MS.Min, if_neg hroot, hmn]
        have hmax : MS.Max m = Res.ok mk2 := by
          rw [MS.Max, if_neg hroot, hmx]
        rw [hmin, hmax]
        refine ⟨?_, ?_, ?_, ?_, ?_, ?_⟩
        · simp [keysOf_eq_nil, hroot]
        · simp [keysOf_eq_nil, hroot]
        · intro e he
          exact absurd he (by simp)
        · intro e he
          exact absurd he (by simp)
        · intro k hk
          injection hk with h2
          subst h2
          exact ⟨minNode_mem hmn, minNode_least hb hmn⟩
        · intro k hk
          injection hk with h2
          subst h2
          exact ⟨maxNode_mem hmx, maxNode_greatest hb hmx⟩

theorem c8_min_max_spec_witness :
    isBSTb (MS.mk wtree 4).root = true ∧
    (((∃ e, MS.Min (MS.mk wtree 4) = Res.err e) ↔ keysOf (MS.mk wtree 4).root = []) ∧
     ((∃ e, MS.Max (MS.mk wtree 4) = Res.err e) ↔ keysOf (MS.mk wtree 4).root = []) ∧
     (∀ e, MS.Min (MS.mk wtree 4) = Res.err e → e = Err.emptyTree) ∧
     (∀ e, MS.Max (MS.mk wtree 4) = Res.err e → e = Err.emptyTree) ∧
     (∀ k, MS.Min (MS.mk wtree 4) = Res.ok k →
        k ∈ keysOf (MS.mk wtree 4).root ∧ ∀ x ∈ keysOf (MS.mk wtree 4).root, k ≤ x) ∧
     (∀ k, MS.Max (MS.mk wtree 4) = Res.ok k →
        k ∈ keysOf (MS.mk wtree 4).root ∧ ∀ x ∈ keysOf (MS.mk wtree 4).root, x ≤ k)) :=
  ⟨by decide, c8_min_max_spec (MS.mk wtree 4) (by decide)⟩

/-- C9: frame property of partial removal — removing a key whose node
holds count ≥ 2 throws nothing, yields exactly the original tree with
that one count decremented (same node/key skeleton, same key list, same
node number, all other lookups unchanged), and decrements the size
counter (by exactly one when the counter is a positive in-range size_t
value). -/
theorem c9_partial_remove_frame (m : MS) (k c : Nat)
    (h : containsNode m.root k = some c) (hc : 2 ≤ c) :
    MS.Remove m k =
      (none, MS.mk (decAt m.root k) ((m.size + (W - 1)) % W)) ∧
    shapeOf (decAt m.root k) = shapeOf m.root ∧
    keysOf (decAt m.root k) = keysOf m.root ∧
    numNodes (decAt m.root k) = numNodes m.root ∧
    containsNode (decAt m.root k) k = some (c - 1) ∧
    (∀ j, j ≠ k → containsNode (decAt m.root k) j = containsNode m.root j) ∧
    (0 < m.size ∧ m.size < W → (MS.Remove m k).2.size = m.size - 1) := by
  have hsome : (containsNode m.root k).isSome = true := by
    rw [h]
    rfl
  have hdec := removeNode_eq_decAt h hc
  have hRem : MS.Remove m k =
      (none, MS.mk (decAt m.root k) ((m.size + (W - 1)) % W)) := by
    rw [MS.Remove, if_pos hsome, hdec]
  refine ⟨hRem, shapeOf_decAt _ _, keysOf_decAt _ _, numNodes_decAt _ _,
    containsNode_decAt_self h, fun j hj => containsNode_decAt_other hj, ?_⟩
  rintro ⟨h0, hW2⟩
  rw [hRem]
  have hWpos : 0 < W := by norm_num [W]
  have he : m.size + (W - 1) = (m.size - 1) + W := by omega
  show ((m.size + (W - 1)) % W) = m.size - 1
  rw [he, Nat.add_mod_right]
  exact Nat.mod_eq_of_lt (by omega)

theorem c9_partial_remove_frame_witness :
    containsNode (MS.mk wtree 4).root 3 = some 2 ∧ 2 ≤ 2 ∧
    (MS.Remove (MS.mk wtree 4) 3 =
      (none, MS.mk (decAt (MS.mk wtree 4).root 3)
        (((MS.mk wtree 4).size + (W - 1)) % W)) ∧
     shapeOf (decAt (MS.mk wtree 4).root 3) = shapeOf (MS.mk wtree 4).root ∧
     keysOf (decAt (MS.mk wtree 4).root 3) = keysOf (MS.mk wtree 4).root ∧
     numNodes (decAt (MS.mk wtree 4).root 3) = numNodes (MS.mk wtree 4).root ∧
     containsNode (decAt (MS.mk wtree 4).root 3) 3 = some (2 - 1) ∧
     (∀ j, j ≠ 3 →
        containsNode (decAt (MS.mk wtree 4).root 3) j =
          containsNode (MS.mk wtree 4).root j) ∧
     (0 < (MS.mk wtree 4).size ∧ (MS.mk wtree 4).size < W →
        (MS.Remove (MS.mk wtree 4) 3).2.size = (MS.mk wtree 4).size - 1)) :=
  ⟨by decide, by decide,
   c9_partial_remove_frame (MS.mk wtree 4) 3 2 (by decide) (by decide)⟩

/-- C10: Floor on the empty multiset throws the "Empty multiset"
(EmptyTree) error for every query key — never the "No floor exists for
key" (NoSuchBound) error, although on an empty tree the floor search
would also find nothing: the emptiness guard runs first. The two error
kinds are distinct. -/
theorem c10_floor_empty_error :
    (∀ q, MS.Floor MS.empty q = Res.err Err.emptyTree) ∧
    Err.emptyTree ≠ Err.noSuchBound ∧
    Err.emptyTree.message = "Empty multiset" :=
  ⟨fun _ => rfl, by decide, rfl⟩
